import Mathlib

/-!
Verification of the CoopCanvas server (src/server.cpp, src/brushes.h) against
its natural-language specification.  Every definition below is a shallow
embedding of a concrete piece of the C++ source; the comment above each
definition names the function it mirrors.  Machine bytes are modelled as
`Fin 256`, C `int` values as `ℤ` or `ℕ`, and the C `float`/`double`
computations of the brush library as exact real arithmetic.
-/

/-- A byte, as stored in `uint8_t` buffers of the server. -/
abbrev Byte := Fin 256

/-- Reduction of an arbitrary natural to a byte, mirroring a C `(uint8_t)` cast. -/
def mkByte (n : ℕ) : Byte := ⟨n % 256, Nat.mod_lt _ (by norm_num)⟩

/-! ## PackBits (server.cpp `packbits_compress` / `packbits_decompress`)

The C++ encoder walks the input with an index `i`; we walk the remaining
suffix of the input list.  The outer `while (i < len)` loop is expressed
with a fuel parameter equal to the input length: every iteration of the
C++ loop consumes at least one input byte, so this fuel never runs out
(`compressGo_fuel` below makes the fuel irrelevance precise).
-/

/-- Inner run scan of `packbits_compress`:
`while (i + 1 < len && data[i] == data[i+1] && (i - run_start) < 127) i++;`.
`runExt a t cap` is the number of extension steps taken when the byte at
`run_start` is `a`, the rest of the input is `t`, and at most `cap` more
steps are allowed (the C++ code caps at 127 so a run covers ≤ 128 bytes). -/
def runExt (a : Byte) : List Byte → ℕ → ℕ
  | b :: t, cap + 1 => if b = a then runExt a t cap + 1 else 0
  | _, _ => 0

/-- Inner literal scan of `packbits_compress`:
`while (j < len && (j - i) < 128) { if (j+2 < len && data[j]==data[j+1] && data[j]==data[j+2]) break; j++; }`.
`litLen l cap` is the number of literal bytes taken from the remaining
input `l` when `cap` more literals are allowed (starts at 128). -/
def litLen : List Byte → ℕ → ℕ
  | [], _ => 0
  | _ :: _, 0 => 0
  | a :: t, cap + 1 =>
    match t with
    | b :: c :: _ => if a = b ∧ a = c then 0 else litLen t cap + 1
    | _ => litLen t cap + 1

/-- Body of `packbits_compress`.  One step of the outer loop emits either a
run block `[(uint8_t)(257 - count), value]` or a literal block
`[(uint8_t)(count - 1), bytes…]` and recurses on the unconsumed suffix. -/
def compressGo : ℕ → List Byte → List Byte
  | _, [] => []
  | 0, _ :: _ => []
  | fuel + 1, a :: t =>
    let ext := runExt a t 127
    if 0 < ext then
      mkByte (257 - (ext + 1)) :: a :: compressGo fuel (t.drop ext)
    else
      let n := litLen (a :: t) 128
      mkByte (n - 1) :: ((a :: t).take n ++ compressGo fuel ((a :: t).drop n))

/-- server.cpp `packbits_compress(const uint8_t* data, size_t len)`. -/
def packbits_compress (l : List Byte) : List Byte := compressGo l.length l

/-- Body of `packbits_decompress`.  Each step reads one header byte
(`int8_t n`): `n == -128` (byte 128) is a no-op, `0 ≤ n ≤ 127` copies
`n + 1` literal bytes (truncated at end of input) and `-127 ≤ n ≤ -1`
(bytes 129–255) repeats the next byte `1 - n = 257 - byte` times.
The fuel again bounds the number of loop iterations by the input length. -/
def decompressGo : ℕ → List Byte → List Byte
  | _, [] => []
  | 0, _ :: _ => []
  | fuel + 1, h :: t =>
    if h.val = 128 then decompressGo fuel t
    else if h.val ≤ 127 then
      t.take (h.val + 1) ++ decompressGo fuel (t.drop (h.val + 1))
    else
      match t with
      | [] => []
      | v :: t2 => List.replicate (257 - h.val) v ++ decompressGo fuel t2

/-- server.cpp `packbits_decompress(const vector<uint8_t>& in)`. -/
def packbits_decompress (l : List Byte) : List Byte := decompressGo l.length l

/-- Input of spec scenario S4. -/
def s4Input : List Byte := [7, 7, 7, 7, 7, 1, 2, 3, 7, 7, 8, 8, 8, 8]

/-! ## Base64 (server.cpp `base64_encode`)

The encoder keeps a bit accumulator `int val` and a bit budget `int valb`.
`val` is modelled modulo `2^32` (the width of the C `int`; the low 14 bits,
the only ones the emitted characters depend on, agree with the wrapping
C computation).  The inner `while (valb >= 0)` loop runs at most twice per
input byte because `valb ≤ 7` on entry, so it is given fuel 2. -/

/-- Alphabet `b64_chars` of server.cpp. -/
def b64charTable : List Char :=
  ['A', 'B', 'C', 'D', 'E', 'F', 'G', 'H', 'I', 'J', 'K', 'L', 'M',
   'N', 'O', 'P', 'Q', 'R', 'S', 'T', 'U', 'V', 'W', 'X', 'Y', 'Z',
   'a', 'b', 'c', 'd', 'e', 'f', 'g', 'h', 'i', 'j', 'k', 'l', 'm',
   'n', 'o', 'p', 'q', 'r', 's', 't', 'u', 'v', 'w', 'x', 'y', 'z',
   '0', '1', '2', '3', '4', '5', '6', '7', '8', '9', '+', '/']

/-- Inner loop `while (valb >= 0) { out.push_back(b64_chars[(val >> valb) & 0x3F]); valb -= 6; }`
of `base64_encode`, returning the emitted 6-bit indices and the final `valb`. -/
def b64emit (val : ℕ) : ℤ → ℕ → List ℕ × ℤ
  | valb, 0 => ([], valb)
  | valb, fuel + 1 =>
    if 0 ≤ valb then
      let p := b64emit val (valb - 6) fuel
      ((val >>> valb.toNat) % 64 :: p.1, p.2)
    else ([], valb)

/-- Main loop of `base64_encode`: for every input byte,
`val = (val << 8) + data[i]; valb += 8;` followed by the emit loop.
Returns the emitted indices together with the final `(val, valb)` state. -/
def b64core : List Byte → ℕ → ℤ → List ℕ × ℕ × ℤ
  | [], val, valb => ([], val, valb)
  | b :: t, val, valb =>
    let v := (val * 256 + b.val) % 2 ^ 32
    let e := b64emit v (valb + 8) 2
    let r := b64core t v e.2
    (e.1 ++ r.1, r.2)

/-- server.cpp `base64_encode(const unsigned char* data, size_t len)`:
the main loop, then the tail emission
`if (valb > -6) out.push_back(b64_chars[((val << 8) >> (valb + 8)) & 0x3F]);`
and `=`-padding to a multiple of four characters. -/
def base64_encode (data : List Byte) : List Char :=
  let r := b64core data 0 (-6)
  let body :=
    if r.2.2 > -6 then
      r.1 ++ [(((r.2.1 * 256) % 2 ^ 32) >>> (r.2.2 + 8).toNat) % 64]
    else r.1
  let chars := body.map (fun i => b64charTable.getD i 'A')
  chars ++ List.replicate ((4 - chars.length % 4) % 4) '='

/-! ## Layer persistence encoding (server.cpp `encode_layer`) -/

/-- Canvas width (`#define WIDTH 640`). -/
def WIDTH : ℕ := 640

/-- Canvas height (`#define HEIGHT 480`). -/
def HEIGHT : ℕ := 480

/-- Maximum layer count (`#define MAX_LAYERS 15`). -/
def MAX_LAYERS : ℕ := 15

/-- RGBA pixel (`struct Pixel { uint8_t r, g, b, a; }` of brushes.h). -/
structure Pixel where
  r : Byte
  g : Byte
  b : Byte
  a : Byte
deriving DecidableEq

/-- Pixel grid of one layer (`Pixel pixels[WIDTH][HEIGHT]`), addressed as
`pixels x y` like the C array; only indices in `[0,WIDTH) × [0,HEIGHT)` are
meaningful. -/
def LayerPixels := ℤ → ℤ → Pixel

/-- Packed 32-bit word `(p.r << 24) | (p.g << 16) | (p.b << 8) | p.a` pushed
by `encode_layer`; the or-ed fields occupy disjoint bytes, so `|` is `+`. -/
def packWord (p : Pixel) : ℕ :=
  p.r.val * 2 ^ 24 + p.g.val * 2 ^ 16 + p.b.val * 2 ^ 8 + p.a.val

/-- Word sequence built by the `encode_layer` loops
(`for y … for x … buffer.push_back(packed)`): y-major, x inner. -/
def layerWords (px : LayerPixels) : List ℕ :=
  (List.range HEIGHT).flatMap (fun (y : ℕ) =>
    (List.range WIDTH).map (fun (x : ℕ) => packWord (px (x : ℤ) (y : ℤ))))

/-- Byte view of one 32-bit word, as produced by the cast
`(const uint8_t*)buffer.data()` in `encode_layer`: the x86 target stores a
`uint32_t` little-endian, least significant byte first. -/
def wordBytesLE (w : ℕ) : List Byte :=
  [mkByte w, mkByte (w / 2 ^ 8), mkByte (w / 2 ^ 16), mkByte (w / 2 ^ 24)]

/-- Byte view of the whole `vector<uint32_t>` buffer of `encode_layer`. -/
def bytesLE (ws : List ℕ) : List Byte := ws.flatMap wordBytesLE

/-- server.cpp `encode_layer(Layer* layer)`: pack the pixels into 32-bit
words, reinterpret the word buffer as bytes, PackBits-compress, then
base64-encode. -/
def encode_layer (px : LayerPixels) : List Char :=
  base64_encode (packbits_compress (bytesLE (layerWords px)))

/-- Byte stream asserted by the claim (spec §4.6): `W·H` 32-bit *big-endian*
words `(r<<24)|(g<<16)|(b<<8)|a`, i.e. bytes `r, g, b, a` per pixel,
y-major then x. -/
def specStreamBE (px : LayerPixels) : List Byte :=
  (List.range HEIGHT).flatMap (fun (y : ℕ) =>
    (List.range WIDTH).flatMap (fun (x : ℕ) =>
      [(px (x : ℤ) (y : ℤ)).r, (px (x : ℤ) (y : ℤ)).g,
       (px (x : ℤ) (y : ℤ)).b, (px (x : ℤ) (y : ℤ)).a]))

/-- Byte stream of the amended claim: the same words laid out
*little-endian*, i.e. bytes `a, b, g, r` per pixel, y-major then x. -/
def streamLE (px : LayerPixels) : List Byte :=
  (List.range HEIGHT).flatMap (fun (y : ℕ) =>
    (List.range WIDTH).flatMap (fun (x : ℕ) =>
      [(px (x : ℤ) (y : ℤ)).a, (px (x : ℤ) (y : ℤ)).b,
       (px (x : ℤ) (y : ℤ)).g, (px (x : ℤ) (y : ℤ)).r]))

/-- Constant test pixel `(r,g,b,a) = (1,1,1,2)`. -/
def constPixel : Pixel := ⟨1, 1, 1, 2⟩

/-- Layer whose every pixel is `constPixel`. -/
def constLayer : LayerPixels := fun _ _ => constPixel

/-! ## Brush library (brushes.h, compiled with `SERVER_SIDE`)

Each brush is embedded as a function returning the list of `setPixel`
calls it makes, in loop order.  The C `float` computations are modelled
as exact real arithmetic; a C cast `(uint8_t)` of a non-negative float is
`⌊·⌋` reduced modulo 256, and a cast to `int` truncates toward zero. -/

/-- Truncation toward zero performed by a C cast from a floating value to `int`. -/
noncomputable def cIntCast (r : ℝ) : ℤ := if 0 ≤ r then ⌊r⌋ else ⌈r⌉

/-- Brush member `int opacity = 255`; the server never changes it. -/
def brushOpacity : ℕ := 255

/-- Offsets `(i, j)` visited by the nested loops `for i in [-r,r], j in [-r,r]`. -/
def squareOffsets (rn : ℕ) : List (ℤ × ℤ) :=
  (List.range (2 * rn + 1)).flatMap (fun (ii : ℕ) =>
    (List.range (2 * rn + 1)).map (fun (jj : ℕ) => ((ii : ℤ) - rn, (jj : ℤ) - rn)))

/-- Offsets for a loop bound given as an `int` that is 1 or more. -/
def rangeOffsets (r : ℤ) : List (ℤ × ℤ) :=
  (List.range (2 * r.toNat + 1)).flatMap (fun (ii : ℕ) =>
    (List.range (2 * r.toNat + 1)).map (fun (jj : ℕ) => ((ii : ℤ) - r, (jj : ℤ) - r)))

/-- brushes.h `RoundBrush::paint`: filled disc of radius `size/2`; alpha is
scaled by the brush opacity; a radius below 1 degenerates to one pixel. -/
def roundPaint (x y : ℤ) (color : Pixel) (size pressure : ℕ) (angle : ℤ) :
    List (ℤ × ℤ × Pixel) :=
  let c : Pixel := { color with a := mkByte (color.a.val * brushOpacity / 255) }
  let r : ℕ := size / 2
  if r < 1 then [(x, y, c)]
  else
    (squareOffsets r).filterMap (fun q =>
      if q.1 * q.1 + q.2 * q.2 ≤ (r : ℤ) * r then some (x + q.1, y + q.2, c) else none)

/-- brushes.h `SquareBrush::paint`: filled square of side `size`. -/
def squarePaint (x y : ℤ) (color : Pixel) (size pressure : ℕ) (angle : ℤ) :
    List (ℤ × ℤ × Pixel) :=
  let c : Pixel := { color with a := mkByte (color.a.val * brushOpacity / 255) }
  (squareOffsets (size / 2)).map (fun q => (x + q.1, y + q.2, c))

/-- brushes.h `HardEraserBrush::paint`: writes transparent black over a square. -/
def hardEraserPaint (x y : ℤ) (color : Pixel) (size pressure : ℕ) (angle : ℤ) :
    List (ℤ × ℤ × Pixel) :=
  (squareOffsets (size / 2)).map (fun q => (x + q.1, y + q.2, (⟨0, 0, 0, 0⟩ : Pixel)))

section RealBrushes

open scoped Classical

/-- Pixel written by `PressureBrush::paint` (brushes.h) at offset `(i,j)`,
`none` when the loop body does not call `setPixel` there. -/
noncomputable def pressureWriteAt (color : Pixel) (maxSize pressure : ℕ) (i j : ℤ) :
    Option Pixel :=
  let p : ℝ := pressure / 255
  let opacityCurve : ℝ :=
    if 1 < 0.2 + 0.8 * Real.sqrt p then 1 else 0.2 + 0.8 * Real.sqrt p
  let baseAlpha : ℝ := ((color.a.val * brushOpacity : ℕ) : ℝ) / 255 * opacityCurve
  let effectiveDiameter : ℝ := maxSize * (0.3 + 0.7 * p)
  let radius : ℝ := if effectiveDiameter / 2 < 0.5 then 0.5 else effectiveDiameter / 2
  let maxDist : ℝ := radius + 1.5 / 2
  if ((i * i + j * j : ℤ) : ℝ) < maxDist * maxDist then
    let dist : ℝ := Real.sqrt ((i * i + j * j : ℤ) : ℝ)
    let delta : ℝ := (radius - dist + 1.5 / 2) / 1.5
    if 0 < delta then
      let d : ℝ := if 1 < delta then 1 else delta
      let pxa : Byte := mkByte (⌊baseAlpha * d⌋.toNat)
      if 0 < pxa.val then some { color with a := pxa } else none
    else none
  else none

/-- brushes.h `PressureBrush::paint`: disc of effective diameter
`maxSize·(0.3 + 0.7·p)` with a 1.5-pixel feather, alpha curve
`0.2 + 0.8·√p`, scanned over `[-range, range]²` with `range = ⌈radius⌉+1`. -/
noncomputable def pressurePaint (x y : ℤ) (color : Pixel) (maxSize pressure : ℕ)
    (angle : ℤ) : List (ℤ × ℤ × Pixel) :=
  let p : ℝ := pressure / 255
  let effectiveDiameter : ℝ := maxSize * (0.3 + 0.7 * p)
  let radius : ℝ := if effectiveDiameter / 2 < 0.5 then 0.5 else effectiveDiameter / 2
  let range : ℤ := ⌈radius⌉ + 1
  (rangeOffsets range).filterMap (fun q =>
    (pressureWriteAt color maxSize pressure q.1 q.2).map (fun c => (x + q.1, y + q.2, c)))

/-- Pixel written by `Airbrush::paint` (brushes.h) at offset `(i,j)`. -/
noncomputable def airbrushWriteAt (color : Pixel) (size pressure : ℕ) (i j : ℤ) :
    Option Pixel :=
  let p : ℝ := pressure / 255
  let e0 : ℤ := ⌊(size : ℝ) * (0.5 + 0.5 * p)⌋
  let r : ℤ := if e0 < 1 then 1 else e0
  if i * i + j * j ≤ r * r then
    let dist : ℝ := Real.sqrt ((i * i + j * j : ℤ) : ℝ)
    let falloff : ℝ := (1 - dist / (r : ℝ)) * (1 - dist / (r : ℝ))
    let fa : ℝ := ((color.a.val * brushOpacity : ℕ) : ℝ) / 255 * (0.15 + 0.85 * p) * falloff
    let pxa : Byte := mkByte (⌊fa⌋.toNat)
    if 0 < pxa.val then some { color with a := pxa } else none
  else none

/-- brushes.h `Airbrush::paint`: disc of radius `size·(0.5 + 0.5·p)` with
squared radial falloff and alpha multiplier `0.15 + 0.85·p`. -/
noncomputable def airbrushPaint (x y : ℤ) (color : Pixel) (size pressure : ℕ)
    (angle : ℤ) : List (ℤ × ℤ × Pixel) :=
  let p : ℝ := pressure / 255
  let e0 : ℤ := ⌊(size : ℝ) * (0.5 + 0.5 * p)⌋
  let r : ℤ := if e0 < 1 then 1 else e0
  (rangeOffsets r).filterMap (fun q =>
    (airbrushWriteAt color size pressure q.1 q.2).map (fun c => (x + q.1, y + q.2, c)))

/-- Fixed 32-sample bristle pattern of the textured/real-paint brush. -/
noncomputable def bristles : List ℝ :=
  [0.3, 0.7, 0.9, 0.5, 0.2, 0.8, 0.9, 0.4,
   0.9, 0.6, 0.3, 0.8, 0.9, 0.2, 0.7, 0.5,
   0.4, 0.9, 0.8, 0.3, 0.6, 0.9, 0.5, 0.2,
   0.8, 0.4, 0.9, 0.7, 0.3, 0.8, 0.6, 0.4]

/-- Stamp written by the textured brush at loop index `i`.  The class is
registered in server.cpp `main` as `RealPaintBrush`; its body is the
brushes.h `TexturedBrush`, whose header comment names it the
"REAL PAINT BRUSH". -/
noncomputable def texturedWriteAt (x y : ℤ) (color : Pixel) (size pressure : ℕ)
    (angle : ℤ) (i : ℤ) : Option (ℤ × ℤ × Pixel) :=
  let rads : ℝ := angle * (Real.pi / 180)
  let p : ℝ := pressure / 255
  let dxv : ℝ := -Real.sin rads
  let dyv : ℝ := Real.cos rads
  let hw0 : ℤ := (size : ℤ) / 2
  let halfWidth : ℤ := if hw0 < 1 then 1 else hw0
  let px : ℤ := x + cIntCast (dxv * i)
  let py : ℤ := y + cIntCast (dyv * i)
  let pressurePower : ℝ := Real.sqrt p
  let bristleStrength : ℝ := bristles.getD (i.natAbs % 32) 0
  let combined : ℝ :=
    if 1 < bristleStrength + pressurePower * 0.8 then 1
    else bristleStrength + pressurePower * 0.8
  let edgeDist : ℝ := (i.natAbs : ℝ) / (halfWidth : ℝ)
  let edgeSoftness : ℝ := 1 - edgeDist ^ (4 : ℕ)
  let finalAlpha : ℝ :=
    ((color.a.val : ℝ) / 255) * ((brushOpacity : ℝ) / 255) * combined * edgeSoftness
  let fca : Byte := mkByte (cIntCast (finalAlpha * 255)).toNat
  if 5 < fca.val then some (px, py, { color with a := fca }) else none

/-- brushes.h `TexturedBrush::paint` (a.k.a. `RealPaintBrush`): a line of
stamps perpendicular to the stroke direction, modulated by the bristle
pattern, a square-root pressure curve and quartic edge falloff. -/
noncomputable def texturedPaint (x y : ℤ) (color : Pixel) (size pressure : ℕ)
    (angle : ℤ) : List (ℤ × ℤ × Pixel) :=
  let hw0 : ℤ := (size : ℤ) / 2
  let halfWidth : ℤ := if hw0 < 1 then 1 else hw0
  (List.range (2 * halfWidth.toNat + 1)).filterMap (fun (ii : ℕ) =>
    texturedWriteAt x y color size pressure angle ((ii : ℤ) - halfWidth))

/-- Pixel written by `SoftEraserBrush::paint` (brushes.h) at offset `(i,j)`:
the RGB channels are always zero, the alpha channel carries the erase
strength. -/
noncomputable def softEraserWriteAt (size pressure : ℕ) (i j : ℤ) : Option Pixel :=
  let p : ℝ := pressure / 255
  let e0 : ℤ := ⌊(size : ℝ) * (0.5 + 0.5 * p)⌋
  let r : ℤ := if e0 < 1 then 1 else e0
  if i * i + j * j ≤ r * r then
    let dist : ℝ := Real.sqrt ((i * i + j * j : ℤ) : ℝ)
    let f1 : ℝ := 1 - dist / (r : ℝ)
    let strength : Byte :=
      mkByte (⌊255 * (f1 * f1 * f1) * (0.1 + 0.9 * p) * ((brushOpacity : ℝ) / 255)⌋.toNat)
    if 0 < strength.val then some ⟨0, 0, 0, strength⟩ else none
  else none

/-- brushes.h `SoftEraserBrush::paint`: radial cubic falloff scaled by
pressure and opacity; the emitted pixel's alpha is the erase strength. -/
noncomputable def softEraserPaint (x y : ℤ) (color : Pixel) (size pressure : ℕ)
    (angle : ℤ) : List (ℤ × ℤ × Pixel) :=
  let p : ℝ := pressure / 255
  let e0 : ℤ := ⌊(size : ℝ) * (0.5 + 0.5 * p)⌋
  let r : ℤ := if e0 < 1 then 1 else e0
  (rangeOffsets r).filterMap (fun q =>
    (softEraserWriteAt size pressure q.1 q.2).map (fun c => (x + q.1, y + q.2, c)))

end RealBrushes

/-- Signature of a brush stamp: the arguments of `Brush::paint`, returning
the list of `setPixel` calls. -/
def BrushFn := ℤ → ℤ → Pixel → ℕ → ℕ → ℤ → List (ℤ × ℤ × Pixel)

/-- Brush registration order of server.cpp `main`:
`RoundBrush, SquareBrush, HardEraserBrush, PressureBrush, Airbrush,
RealPaintBrush, SoftEraserBrush` — indices 0…6. -/
noncomputable def availableBrushes : List BrushFn :=
  [roundPaint, squarePaint, hardEraserPaint, pressurePaint, airbrushPaint,
   texturedPaint, softEraserPaint]

/-! ## Room state and the UDP draw path (server.cpp) -/

/-- Network endpoint as compared by `is_same_address` (server.cpp):
`sin_addr` and `sin_port`. -/
structure Endpoint where
  addr : ℕ
  port : ℕ
deriving DecidableEq

/-- server.cpp `struct UDPMessage` (packed 18-byte datagram).  The
`int16_t` fields are modelled as integers. -/
structure UDPMessage where
  type : Byte
  brush_id : Byte
  layer_id : Byte
  x : ℤ
  y : ℤ
  ex : ℤ
  ey : ℤ
  r : Byte
  g : Byte
  b : Byte
  a : Byte
  size : Byte
  pressure : Byte

/-- server.cpp `struct Layer`: the pixel grid, the dirty flag and the
cached base64 form. -/
structure Layer where
  pixels : LayerPixels
  dirty : Bool
  cached : List Char

/-- server.cpp `struct ConnectedUser`: socket, name, optional signature
bytes, per-room uid. -/
structure ConnectedUser where
  socket_fd : ℤ
  username : String
  signature : Option (List Byte)
  room_uid : ℕ

/-- server.cpp `struct TCPMessage` (263-byte framed record); `data` is the
256-byte payload. -/
structure TCPMessage where
  type : Byte
  canvas_id : Byte
  data_len : ℕ
  layer_count : Byte
  layer_id : Byte
  user_id : Byte
  data : List Byte

/-- server.cpp `struct CanvasRoom` (the fields the verified operations
touch). The `users` map is an association list keyed by socket fd. -/
structure CanvasRoom where
  id : ℕ
  layers : List Layer
  udp_clients : List Endpoint
  tcp_clients : List ℤ
  users : List (ℤ × ConnectedUser)
  dirty : Bool

/-- The opaque-white paper layer made by `Layer::init_white`. -/
def whiteLayer : Layer :=
  { pixels := fun _ _ => ⟨255, 255, 255, 255⟩, dirty := true, cached := [] }

/-- A fresh transparent layer made by `Layer::init_transparent`. -/
def transparentLayer : Layer :=
  { pixels := fun _ _ => ⟨0, 0, 0, 0⟩, dirty := true, cached := [] }

/-- The bounds-checked overwrite performed by the `setPixel` lambdas of
`handle_draw` and `handle_line` (server.cpp): a write inside
`[0,WIDTH) × [0,HEIGHT)` stores the pixel verbatim (a plain assignment,
`room->layers[idx]->pixels[px][py] = c`) and marks the layer dirty;
out-of-range writes are dropped. -/
def setPixelAt (L : Layer) (px py : ℤ) (c : Pixel) : Layer :=
  if 0 ≤ px ∧ px < (WIDTH : ℤ) ∧ 0 ≤ py ∧ py < (HEIGHT : ℤ) then
    { pixels := fun u v => if u = px ∧ v = py then c else L.pixels u v,
      dirty := true, cached := L.cached }
  else L

/-- Application of a brush's emitted writes to one layer, in emission order. -/
def applyWrites (L : Layer) (ws : List (ℤ × ℤ × Pixel)) : Layer :=
  ws.foldl (fun acc w => setPixelAt acc w.1 w.2.1 w.2.2) L

/-- server.cpp `broadcast_udp`: send the datagram to every recorded peer
whose endpoint differs from the sender's. -/
def broadcast_udp (room : CanvasRoom) (msg : UDPMessage) (sender : Endpoint) :
    List (Endpoint × UDPMessage) :=
  (room.udp_clients.filter (fun c => decide (¬ c = sender))).map (fun c => (c, msg))

/-- server.cpp `handle_draw`: clamp the layer index (fall back to 1), mark
the room dirty, stamp the brush through the overwriting `setPixel` when the
brush id is within the catalog, and rebroadcast the datagram to every
other unreliable peer. -/
noncomputable def handle_draw (room : CanvasRoom) (msg : UDPMessage) (sender : Endpoint) :
    CanvasRoom × List (Endpoint × UDPMessage) :=
  let layer_idx : ℕ :=
    if msg.layer_id.val = 0 ∨ room.layers.length ≤ msg.layer_id.val then 1
    else msg.layer_id.val
  let col : Pixel := ⟨msg.r, msg.g, msg.b, msg.a⟩
  let room1 : CanvasRoom := { room with dirty := true }
  let room2 : CanvasRoom :=
    if h : msg.brush_id.val < availableBrushes.length then
      let stamped : List Layer :=
        room1.layers.modify
          (fun L => applyWrites L
            ((availableBrushes.get ⟨msg.brush_id.val, h⟩)
              msg.x msg.y col msg.size.val msg.pressure.val msg.ex)) layer_idx
      { room1 with layers := stamped }
    else room1
  (room2, broadcast_udp room2 msg sender)

/-- Room and datagram for the C10 witness: two peers, unknown brush 9. -/
def w10Room : CanvasRoom :=
  { id := 0, layers := [whiteLayer, transparentLayer],
    udp_clients := [⟨1, 2⟩, ⟨3, 4⟩], tcp_clients := [], users := [], dirty := false }

/-- DRAW datagram carrying the unknown brush id 9. -/
def w10Msg : UDPMessage :=
  { type := 6, brush_id := 9, layer_id := 1, x := 0, y := 0, ex := 0, ey := 0,
    r := 0, g := 0, b := 0, a := 255, size := 3, pressure := 255 }

/-- Modelled from the spec: §4.5 straight-alpha source-over on byte
channels.  With `sa' = sa/255`, `da' = da/255` and `oa = sa' + da'·(1-sa')`,
a zero `oa` yields transparent black; otherwise each colour channel is
`(s·sa' + d·da'·(1-sa'))/oa` (truncated to a byte, as the client's
`(uint8_t)` cast of the same formula does) and the output alpha is
`round(oa·255)`. -/
def sourceOverSpec (s d : Pixel) : Pixel :=
  let sa : ℚ := s.a.val / 255
  let da : ℚ := d.a.val / 255
  let oa : ℚ := sa + da * (1 - sa)
  if oa = 0 then ⟨0, 0, 0, 0⟩
  else
    let mix : ℚ → ℚ → Byte := fun sc dc =>
      mkByte (⌊(sc * sa + dc * da * (1 - sa)) / oa⌋).toNat
    ⟨mix s.r.val d.r.val, mix s.g.val d.g.val, mix s.b.val d.b.val,
      mkByte (round (oa * 255)).toNat⟩

/-- Drawable layer filled with opaque red, the target of the C1 stamp. -/
def c1Layer : Layer :=
  { pixels := fun _ _ => ⟨255, 0, 0, 255⟩, dirty := false, cached := [] }

/-- Room whose layer 1 is opaque red. -/
def c1Room : CanvasRoom :=
  { id := 0, layers := [whiteLayer, c1Layer], udp_clients := [],
    tcp_clients := [], users := [], dirty := false }

/-- DRAW datagram: round brush, layer 1, centre (100,100), colour
`(0,0,0,128)`, size 5, pressure 255. -/
def c1Msg : UDPMessage :=
  { type := 6, brush_id := 0, layer_id := 1, x := 100, y := 100, ex := 0, ey := 0,
    r := 0, g := 0, b := 0, a := 128, size := 5, pressure := 255 }

/-! ## TCP session operations (server.cpp `tcp_client_session`, `CanvasRoom`) -/

/-- Lookup in the `users` map (`room->users.count(fd)` / `room->users[fd]`). -/
def usersFind (users : List (ℤ × ConnectedUser)) (fd : ℤ) : Option ConnectedUser :=
  (users.find? (fun p => decide (p.1 = fd))).map (fun p => p.2)

/-- Insert-or-assign on the `users` map (`room->users[fd] = u`). -/
def usersInsert (users : List (ℤ × ConnectedUser)) (fd : ℤ) (u : ConnectedUser) :
    List (ℤ × ConnectedUser) :=
  if users.any (fun p => decide (p.1 = fd)) then
    users.map (fun p => if p.1 = fd then (fd, u) else p)
  else users ++ [(fd, u)]

/-- Uid scan of `CanvasRoom::add_user`: mark every current user's
`room_uid` as used, then take the first free value of `1..=255`
(`room_uid` keeps its zero initialisation when all are taken). -/
def firstFreeUid (used : List ℕ) : ℕ :=
  ((List.range' 1 255).find? (fun i => !(used.contains i))).getD 0

/-- server.cpp `CanvasRoom::add_user` (the `strncpy` name truncation is
elided — no claim depends on the name): build the record with the
smallest free uid and insert it into the user map. -/
def add_user (room : CanvasRoom) (fd : ℤ) (name : String) (sig : Option (List Byte)) :
    CanvasRoom :=
  let uid := firstFreeUid (room.users.map (fun p => p.2.room_uid))
  { room with users := usersInsert room.users fd ⟨fd, name, sig, uid⟩ }

/-- The room mutations of the MSG_LOGIN case of `tcp_client_session`: the
socket is pushed onto `tcp_clients`, `add_user` runs, and
`users[client_sock]->room_uid` is read back for the WELCOME reply. -/
def loginStep (room : CanvasRoom) (fd : ℤ) (name : String) : CanvasRoom × ℕ :=
  let room1 := { room with tcp_clients := room.tcp_clients ++ [fd] }
  let room2 := add_user room1 fd name none
  (room2, ((usersFind room2.users fd).map (fun u => u.room_uid)).getD 0)

/-- The disconnect cleanup at the end of `tcp_client_session`: the socket
is erased from `tcp_clients`; the `users` entry is not removed — the
`remove_user` member function exists in server.cpp but is never called. -/
def disconnectStep (room : CanvasRoom) (fd : ℤ) : CanvasRoom :=
  { room with tcp_clients := room.tcp_clients.filter (fun s => decide (¬ s = fd)) }

/-- Fresh room as set up by `CanvasRoom::init`: paper plus one drawable. -/
def c7Room0 : CanvasRoom :=
  { id := 0, layers := [whiteLayer, transparentLayer], udp_clients := [],
    tcp_clients := [], users := [], dirty := true }

/-- The MSG_SIGNATURE case of `tcp_client_session`: accepted only when
`data_len == 128`; stores the first 128 payload bytes as the sender's
signature and broadcasts them via `broadcast_tcp` (no excluded socket) to
every subscriber, tagged with the sender's `room_uid`. -/
def signatureStep (room : CanvasRoom) (fd : ℤ) (canvasId : Byte) (msg : TCPMessage) :
    CanvasRoom × List (ℤ × TCPMessage) :=
  if msg.data_len = 128 then
    match usersFind room.users fd with
    | none => (room, [])
    | some u =>
      let u2 : ConnectedUser := { u with signature := some (msg.data.take 128) }
      let room2 := { room with users := usersInsert room.users fd u2 }
      let bmsg : TCPMessage :=
        { type := 15, canvas_id := canvasId, data_len := 128, layer_count := 0,
          layer_id := 0, user_id := mkByte u.room_uid,
          data := msg.data.take 128 ++ List.replicate 128 0 }
      (room2, (room2.tcp_clients.filter (fun s => decide (¬ s = -1))).map (fun s => (s, bmsg)))
  else (room, [])

def c6User : ConnectedUser := ⟨5, "X", none, 1⟩

def c6Room : CanvasRoom :=
  { id := 0, layers := [whiteLayer, transparentLayer], udp_clients := [],
    tcp_clients := [5], users := [(5, c6User)], dirty := true }

def c6Payload : List Byte := List.replicate 256 7

def c6Msg256 : TCPMessage :=
  { type := 15, canvas_id := 0, data_len := 256, layer_count := 0,
    layer_id := 0, user_id := 0, data := c6Payload }

def c6Msg128 : TCPMessage := { c6Msg256 with data_len := 128 }

/-- server.cpp `CanvasRoom::add_layer`: refuse at `MAX_LAYERS`, else push
a fresh transparent layer. -/
def add_layer (room : CanvasRoom) : CanvasRoom :=
  if MAX_LAYERS ≤ room.layers.length then room
  else { room with layers := room.layers ++ [transparentLayer] }

/-- server.cpp `CanvasRoom::insert_layer`: refuse at `MAX_LAYERS`; an
out-of-range index falls back to `add_layer`; otherwise insert a fresh
transparent layer at `layer_idx`. -/
def insert_layer (room : CanvasRoom) (layer_idx : ℕ) : CanvasRoom :=
  if MAX_LAYERS ≤ room.layers.length then room
  else if layer_idx = 0 ∨ room.layers.length < layer_idx then add_layer room
  else { room with layers := room.layers.insertIdx layer_idx transparentLayer }

/-- The MSG_LAYER_ADD case of `tcp_client_session`: mark the room dirty,
insert (for an in-range positive `layer_id`) or append, then
unconditionally broadcast a MSG_LAYER_ADD response carrying the resulting
layer count and insertion index to every subscriber. -/
def layerAddStep (room : CanvasRoom) (canvasId : Byte) (msg : TCPMessage) :
    CanvasRoom × List (ℤ × TCPMessage) :=
  let room1 := { room with dirty := true }
  let pr : CanvasRoom × ℕ :=
    if 0 < msg.layer_id.val ∧ msg.layer_id.val < room1.layers.length then
      (insert_layer room1 msg.layer_id.val, msg.layer_id.val)
    else
      let r2 := add_layer room1
      (r2, r2.layers.length - 1)
  let resp : TCPMessage :=
    { type := 10, canvas_id := canvasId, data_len := 0,
      layer_count := mkByte pr.1.layers.length, layer_id := mkByte pr.2,
      user_id := 0, data := List.replicate 256 0 }
  (pr.1, (pr.1.tcp_clients.filter (fun s => decide (¬ s = -1))).map (fun s => (s, resp)))

def c8Room : CanvasRoom :=
  { id := 0, layers := List.replicate 15 transparentLayer, udp_clients := [],
    tcp_clients := [5], users := [], dirty := false }

def c8Msg : TCPMessage :=
  { type := 10, canvas_id := 0, data_len := 0, layer_count := 0,
    layer_id := 0, user_id := 0, data := List.replicate 256 0 }

/-- The `while (true)` loop of server.cpp `handle_line`, as the list of
points the brush is stamped at.  State: current point `(x0, y0)`, target
`(x1, y1)`, `dx = |x1-x0|`, `dy = -|y1-y0|`, steps `sx, sy` and the error
term `err`; each iteration stamps, breaks at the target, then advances
`x` when `e2 >= dy` and `y` when `e2 <= dx`, with `e2 = 2*err`.  Fuel
bounds the iteration count; `bresenham` supplies enough for the loop to
reach the target. -/
def bresLoop : ℕ → ℤ → ℤ → ℤ → ℤ → ℤ → ℤ → ℤ → ℤ → ℤ → List (ℤ × ℤ)
  | 0, _, _, _, _, _, _, _, _, _ => []
  | fuel + 1, x0, y0, x1, y1, dx, dy, sx, sy, err =>
    if x0 = x1 ∧ y0 = y1 then [(x0, y0)]
    else
      (x0, y0) ::
        bresLoop fuel
          (if dy ≤ 2 * err then x0 + sx else x0)
          (if 2 * err ≤ dx then y0 + sy else y0)
          x1 y1 dx dy sx sy
          ((if dy ≤ 2 * err then err + dy else err) + (if 2 * err ≤ dx then dx else 0))

/-- The Bresenham walk of `handle_line`, with its initialisation
`dx = abs(x1-x0)`, `sx = x0 < x1 ? 1 : -1`, `dy = -abs(y1-y0)`,
`sy = y0 < y1 ? 1 : -1`, `err = dx + dy`. -/
def bresenham (x0 y0 x1 y1 : ℤ) : List (ℤ × ℤ) :=
  bresLoop ((x1 - x0).natAbs + (y1 - y0).natAbs + 1) x0 y0 x1 y1
    |x1 - x0| (-|y1 - y0|)
    (if x0 < x1 then 1 else -1) (if y0 < y1 then 1 else -1)
    (|x1 - x0| + -|y1 - y0|)

section LineOps
open scoped Classical

/-- C library `atan2(y, x)` by cases; only the `x > 0` branch (principal
`arctan (y/x)`) is exercised by the claims below. -/
noncomputable def atan2 (y x : ℝ) : ℝ :=
  if 0 < x then Real.arctan (y / x)
  else if x < 0 ∧ 0 ≤ y then Real.arctan (y / x) + Real.pi
  else if x < 0 then Real.arctan (y / x) - Real.pi
  else if 0 < y then Real.pi / 2
  else if y < 0 then -(Real.pi / 2)
  else 0

/-- `handle_line`'s angle `(int)(atan2(msg.ey - msg.y, msg.ex - msg.x)
* 180.0 / M_PI)`: the C `(int)` cast truncates toward zero. -/
noncomputable def lineAngle (msg : UDPMessage) : ℤ :=
  cIntCast (atan2 ((msg.ey - msg.y : ℤ) : ℝ) ((msg.ex - msg.x : ℤ) : ℝ) * 180 / Real.pi)

/-- server.cpp `handle_line`: clamp the layer index (fall back to 1), mark
the room dirty, stamp the brush — when its id is within the catalog — at
every point of the Bresenham walk from `(x, y)` to `(ex, ey)` with the
truncated `atan2` angle, and rebroadcast the datagram to every other
unreliable peer. -/
noncomputable def handle_line (room : CanvasRoom) (msg : UDPMessage) (sender : Endpoint) :
    CanvasRoom × List (Endpoint × UDPMessage) :=
  let layer_idx : ℕ :=
    if msg.layer_id.val = 0 ∨ room.layers.length ≤ msg.layer_id.val then 1
    else msg.layer_id.val
  let col : Pixel := ⟨msg.r, msg.g, msg.b, msg.a⟩
  let room1 : CanvasRoom := { room with dirty := true }
  let room2 : CanvasRoom :=
    if h : msg.brush_id.val < availableBrushes.length then
      let stamped : List Layer :=
        room1.layers.modify
          (fun L => (bresenham msg.x msg.y msg.ex msg.ey).foldl
            (fun acc p => applyWrites acc
              ((availableBrushes.get ⟨msg.brush_id.val, h⟩)
                p.1 p.2 col msg.size.val msg.pressure.val (lineAngle msg))) L) layer_idx
      { room1 with layers := stamped }
    else room1
  (room2, broadcast_udp room2 msg sender)

end LineOps

def c2Msg : UDPMessage :=
  { type := 2, brush_id := 0, layer_id := 1, x := 0, y := 0, ex := 100, ey := 1,
    r := 0, g := 0, b := 0, a := 255, size := 5, pressure := 255 }

/-- The catalog contains the brush named by `c2Msg`. -/
def c2H : c2Msg.brush_id.val < availableBrushes.length := by
  norm_num [availableBrushes, c2Msg]

/-! ### PackBits round-trip lemmas -/

theorem runExt_le_cap (a : Byte) : ∀ (t : List Byte) (cap : ℕ), runExt a t cap ≤ cap := by
  intro t
  induction t with
  | nil => intro cap; cases cap <;> simp [runExt]
  | cons b t ih =>
    intro cap
    cases cap with
    | zero => simp [runExt]
    | succ c =>
      by_cases hb : b = a
      · simpa [runExt, hb] using ih c
      · simp [runExt, hb]

theorem runExt_le_length (a : Byte) :
    ∀ (t : List Byte) (cap : ℕ), runExt a t cap ≤ t.length := by
  intro t
  induction t with
  | nil => intro cap; cases cap <;> simp [runExt]
  | cons b t ih =>
    intro cap
    cases cap with
    | zero => simp [runExt]
    | succ c =>
      by_cases hb : b = a
      · simpa [runExt, hb, Nat.succ_le_succ_iff] using ih c
      · simp [runExt, hb]

theorem take_runExt (a : Byte) :
    ∀ (t : List Byte) (cap : ℕ),
      t.take (runExt a t cap) = List.replicate (runExt a t cap) a := by
  intro t
  induction t with
  | nil => intro cap; cases cap <;> simp [runExt]
  | cons b t ih =>
    intro cap
    cases cap with
    | zero => simp [runExt]
    | succ c =>
      by_cases hb : b = a
      · subst hb
        simp [runExt, List.replicate_succ, ih c]
      · simp [runExt, hb]

theorem litLen_le_cap : ∀ (l : List Byte) (cap : ℕ), litLen l cap ≤ cap := by
  intro l
  induction l with
  | nil => intro cap; simp [litLen]
  | cons a t ih =>
    intro cap
    cases cap with
    | zero => simp [litLen]
    | succ c =>
      cases t with
      | nil => simp [litLen, Nat.succ_le_succ_iff]
      | cons b t2 =>
        cases t2 with
        | nil =>
          simpa [litLen, Nat.succ_le_succ_iff] using ih c
        | cons d t3 =>
          by_cases h3 : a = b ∧ a = d
          · obtain ⟨hab, had⟩ := h3
            subst hab
            subst had
            simp [litLen]
          · simpa [litLen, h3, Nat.succ_le_succ_iff] using ih c

theorem litLen_le_length : ∀ (l : List Byte) (cap : ℕ), litLen l cap ≤ l.length := by
  intro l
  induction l with
  | nil => intro cap; simp [litLen]
  | cons a t ih =>
    intro cap
    cases cap with
    | zero => simp [litLen]
    | succ c =>
      cases t with
      | nil => simp [litLen]
      | cons b t2 =>
        cases t2 with
        | nil =>
          simpa [litLen, Nat.succ_le_succ_iff] using ih c
        | cons d t3 =>
          by_cases h3 : a = b ∧ a = d
          · obtain ⟨hab, had⟩ := h3
            subst hab
            subst had
            simp [litLen]
          · simpa [litLen, h3, Nat.succ_le_succ_iff] using ih c

theorem litLen_pos (a : Byte) (t : List Byte) (h : runExt a t 127 = 0) :
    1 ≤ litLen (a :: t) 128 := by
  cases t with
  | nil => simp [litLen]
  | cons b t2 =>
    have hb : ¬ b = a := by
      intro hba
      simp [runExt, hba] at h
    cases t2 with
    | nil => simp [litLen]
    | cons d t3 =>
      have h3 : ¬ (a = b ∧ a = d) := by
        rintro ⟨h1, _⟩
        exact hb h1.symm
      simp [litLen, h3]

theorem compress_roundtrip_aux :
    ∀ (fc : ℕ) (l : List Byte), l.length ≤ fc →
      ∀ (fd : ℕ), (compressGo fc l).length ≤ fd →
        decompressGo fd (compressGo fc l) = l := by
  intro fc
  induction fc with
  | zero =>
    intro l hl fd _
    have : l = [] := List.length_eq_zero.mp (Nat.le_zero.mp hl)
    subst this
    cases fd <;> simp [compressGo, decompressGo]
  | succ fc ih =>
    intro l hl fd hfd
    cases l with
    | nil => cases fd <;> simp [compressGo, decompressGo]
    | cons a t =>
      by_cases hrun : 0 < runExt a t 127
      · -- run branch
        set ext := runExt a t 127 with hext
        have hcap : ext ≤ 127 := runExt_le_cap a t 127
        have hlen : ext ≤ t.length := runExt_le_length a t 127
        have hhdr : 257 - (ext + 1) = 256 - ext := by omega
        have hval : (mkByte (256 - ext)).val = 256 - ext := by
          simp [mkByte]
          omega
        have hcg : compressGo (fc + 1) (a :: t) =
            mkByte (256 - ext) :: a :: compressGo fc (t.drop ext) := by
          simp [compressGo, ← hext, hrun, hhdr]
        rw [hcg] at hfd ⊢
        cases fd with
        | zero => simp at hfd
        | succ fd =>
          have h128 : ¬ (mkByte (256 - ext)).val = 128 := by omega
          have h127 : ¬ (mkByte (256 - ext)).val ≤ 127 := by omega
          have hrec : decompressGo fd (compressGo fc (t.drop ext)) = t.drop ext := by
            apply ih
            · have := List.length_drop ext t
              simp at hl ⊢
              omega
            · simp at hfd
              omega
          have hd : decompressGo (fd + 1)
              (mkByte (256 - ext) :: a :: compressGo fc (t.drop ext)) =
              List.replicate (257 - (mkByte (256 - ext)).val) a ++
                decompressGo fd (compressGo fc (t.drop ext)) := by
            simp [decompressGo, h128, h127]
          rw [hd, hrec, hval]
          have hrepl : 257 - (256 - ext) = ext + 1 := by omega
          rw [hrepl]
          rw [List.replicate_succ]
          have : List.replicate ext a = t.take ext := (take_runExt a t 127).symm
          rw [this, List.cons_append, List.take_append_drop]
      · -- literal branch
        have hz : runExt a t 127 = 0 := by omega
        set s := a :: t with hs
        set n := litLen s 128 with hn
        have hpos : 1 ≤ n := litLen_pos a t hz
        have hle : n ≤ 128 := litLen_le_cap s 128
        have hlenn : n ≤ s.length := litLen_le_length s 128
        have hval : (mkByte (n - 1)).val = n - 1 := by
          simp [mkByte]
          omega
        have hcg : compressGo (fc + 1) s =
            mkByte (n - 1) :: (s.take n ++ compressGo fc (s.drop n)) := by
          simp [hs, compressGo, hz, ← hn]
        rw [hcg] at hfd ⊢
        cases fd with
        | zero => simp at hfd
        | succ fd =>
          have h128 : ¬ (mkByte (n - 1)).val = 128 := by omega
          have h127 : (mkByte (n - 1)).val ≤ 127 := by omega
          have htl : (s.take n).length = n := by
            simp [List.length_take]
            omega
          have hcount : (mkByte (n - 1)).val + 1 = n := by omega
          have hrec : decompressGo fd (compressGo fc (s.drop n)) = s.drop n := by
            apply ih
            · have := List.length_drop n s
              simp [hs] at hl ⊢
              omega
            · simp at hfd
              omega
          have hd : decompressGo (fd + 1)
              (mkByte (n - 1) :: (s.take n ++ compressGo fc (s.drop n))) =
              (s.take n ++ compressGo fc (s.drop n)).take ((mkByte (n - 1)).val + 1) ++
                decompressGo fd
                  ((s.take n ++ compressGo fc (s.drop n)).drop ((mkByte (n - 1)).val + 1)) := by
            simp [decompressGo, h128, h127]
          rw [hd, hcount, List.take_left' htl, List.drop_left' htl, hrec,
            List.take_append_drop]

/-- Round-trip of the server's PackBits coder, stated over the fuelled
bodies: whenever the fuel is at least the input length (which is how
`packbits_compress` and `packbits_decompress` invoke them), decompression
inverts compression. -/
theorem packbits_roundtrip_general (l : List Byte) :
    packbits_decompress (packbits_compress l) = l :=
  compress_roundtrip_aux l.length l le_rfl _ le_rfl

theorem compressGo_fuel :
    ∀ (f1 : ℕ) (l : List Byte), l.length ≤ f1 → ∀ (f2 : ℕ), l.length ≤ f2 →
      compressGo f1 l = compressGo f2 l := by
  intro f1
  induction f1 with
  | zero =>
    intro l hl f2 _
    have : l = [] := List.length_eq_zero.mp (Nat.le_zero.mp hl)
    subst this
    cases f2 <;> simp [compressGo]
  | succ f1 ih =>
    intro l hl f2 hl2
    cases l with
    | nil => cases f2 <;> simp [compressGo]
    | cons a t =>
      cases f2 with
      | zero => simp at hl2
      | succ f2 =>
        by_cases hrun : 0 < runExt a t 127
        · have hlen : runExt a t 127 ≤ t.length := runExt_le_length a t 127
          simp only [compressGo, hrun, if_pos]
          have : (t.drop (runExt a t 127)).length ≤ f1 := by
            have := List.length_drop (runExt a t 127) t
            simp at hl
            omega
          have h2 : (t.drop (runExt a t 127)).length ≤ f2 := by
            have := List.length_drop (runExt a t 127) t
            simp at hl2
            omega
          rw [ih _ this _ h2]
        · have hz : runExt a t 127 = 0 := by omega
          have hpos : 1 ≤ litLen (a :: t) 128 := litLen_pos a t hz
          simp only [compressGo, hrun, if_neg, if_false]
          have hd1 : ((a :: t).drop (litLen (a :: t) 128)).length ≤ f1 := by
            have := List.length_drop (litLen (a :: t) 128) (a :: t)
            simp at hl this ⊢
            omega
          have hd2 : ((a :: t).drop (litLen (a :: t) 128)).length ≤ f2 := by
            have := List.length_drop (litLen (a :: t) 128) (a :: t)
            simp at hl2 this ⊢
            omega
          rw [ih _ hd1 _ hd2]

theorem packbits_compress_fuel (l : List Byte) (f : ℕ) (h : l.length ≤ f) :
    packbits_compress l = compressGo f l :=
  compressGo_fuel l.length l le_rfl f h

/-- C4: for every byte sequence `b`, decompressing the PackBits compression
of `b` yields `b` exactly: `packbits_decompress (packbits_compress b) = b`. -/
theorem C4_packbits_roundtrip (b : List Byte) :
    packbits_decompress (packbits_compress b) = b :=
  compress_roundtrip_aux b.length b le_rfl _ le_rfl

/-- C9 counterexample: the encoder does not produce the byte sequence
claimed in the spec (`[0xFC,0x07,0x02,0x01,0x02,0x03,0x07,0x07,0xFD,0x08]`).
The two trailing 7s of the literal stretch are kept inside the literal
block (the encoder only breaks a literal at a run of three), so the literal
header is `0x04` with five literal bytes, not `0x02` with three. -/
theorem C9_counterexample :
    packbits_compress s4Input ≠
      [0xFC, 0x07, 0x02, 0x01, 0x02, 0x03, 0x07, 0x07, 0xFD, 0x08] := by
  decide

/-- C9 (amended): PackBits-encoding `[7,7,7,7,7,1,2,3,7,7,8,8,8,8]` yields
exactly `[0xFC,0x07,0x04,0x01,0x02,0x03,0x07,0x07,0xFD,0x08]` (headers are
`-4, 4, -3` in two's-complement bytes: a run of five 7s, five literal bytes
`1,2,3,7,7`, and a run of four 8s), and decoding that output yields the
original sequence. -/
theorem C9_amended :
    packbits_compress s4Input =
        [0xFC, 0x07, 0x04, 0x01, 0x02, 0x03, 0x07, 0x07, 0xFD, 0x08] ∧
      packbits_decompress [0xFC, 0x07, 0x04, 0x01, 0x02, 0x03, 0x07, 0x07, 0xFD, 0x08] =
        s4Input := by
  constructor <;> decide

theorem wordBytesLE_packWord (p : Pixel) :
    wordBytesLE (packWord p) = [p.a, p.b, p.g, p.r] := by
  obtain ⟨⟨r, hr⟩, ⟨g, hg⟩, ⟨b, hb⟩, ⟨a, ha⟩⟩ := p
  simp only [wordBytesLE, packWord, mkByte, List.cons.injEq, and_true, Fin.mk.injEq]
  refine ⟨?_, ?_, ?_, ?_⟩ <;> omega

set_option maxRecDepth 8000 in
/-- The byte reinterpretation of the packed word buffer is exactly the
per-pixel `a, b, g, r` stream. -/
theorem bytesLE_layerWords (px : LayerPixels) :
    bytesLE (layerWords px) = streamLE px := by
  simp only [bytesLE, layerWords, streamLE]
  rw [List.flatMap_assoc]
  congr 1
  funext y
  rw [List.flatMap_map]
  congr 1
  funext x
  exact wordBytesLE_packWord _

/-! ### C5: the persisted byte stream is little-endian, not big-endian

The counterexample layer is constant with pixel `(r,g,b,a) = (1,1,1,2)`:
its little-endian byte stream is the period-4 sequence `2,1,1,1,…` while
the big-endian stream of the claim is `1,1,1,2,…`, and the two streams
compress and base64-encode to strings that differ within the first four
characters. -/

theorem flatMap_const_eq {α β : Type} (l : List α) (c : List β) :
    l.flatMap (fun _ => c) = (List.replicate l.length c).flatten := by
  induction l with
  | nil => simp
  | cons a t ih => simp [List.replicate_succ, ih]

theorem flatten_replicate_flatten {α : Type} (a b : ℕ) (P : List α) :
    (List.replicate a ((List.replicate b P).flatten)).flatten =
      (List.replicate (a * b) P).flatten := by
  induction a with
  | zero => simp
  | succ n ih =>
    rw [List.replicate_succ, List.flatten_cons, ih,
      show (n + 1) * b = b + n * b from by ring, List.replicate_add,
      List.flatten_append]

theorem streamLE_const :
    streamLE constLayer = (List.replicate 307200 ([2, 1, 1, 1] : List Byte)).flatten := by
  rw [streamLE]
  simp only [constLayer, constPixel]
  rw [flatMap_const_eq, List.length_range, flatMap_const_eq, List.length_range,
    flatten_replicate_flatten,
    show HEIGHT * WIDTH = 307200 from by norm_num [HEIGHT, WIDTH]]

theorem specStreamBE_const :
    specStreamBE constLayer =
      (List.replicate 307200 ([1, 1, 1, 2] : List Byte)).flatten := by
  rw [specStreamBE]
  simp only [constLayer, constPixel]
  rw [flatMap_const_eq, List.length_range, flatMap_const_eq, List.length_range,
    flatten_replicate_flatten,
    show HEIGHT * WIDTH = 307200 from by norm_num [HEIGHT, WIDTH]]

theorem compressGo_LE_step (R : List Byte) :
    compressGo (R.length + 8) (2 :: 1 :: 1 :: 1 :: 2 :: 1 :: 1 :: 1 :: R) =
      0 :: 2 :: 254 :: 1 :: compressGo (R.length + 6) (2 :: 1 :: 1 :: 1 :: R) := by
  have m0 : mkByte 0 = 0 := by decide
  have m254 : mkByte 254 = 254 := by decide
  simp [compressGo, runExt, litLen, m0, m254]

theorem compressGo_BE_step (R : List Byte) :
    compressGo (R.length + 8) (1 :: 1 :: 1 :: 2 :: 1 :: 1 :: 1 :: 2 :: R) =
      254 :: 1 :: 0 :: 2 :: compressGo (R.length + 6) (1 :: 1 :: 1 :: 2 :: R) := by
  have m0 : mkByte 0 = 0 := by decide
  have m254 : mkByte 254 = 254 := by decide
  simp [compressGo, runExt, litLen, m0, m254]

theorem b64core_head_LE (t : List Byte) :
    b64core (0 :: 2 :: 254 :: t) 0 (-6) =
      (0 :: 0 :: 11 :: 62 :: (b64core t 766 (-6)).1, (b64core t 766 (-6)).2) := by
  have h0 : ((0 : Byte) : ℕ) = 0 := rfl
  have h2 : ((2 : Byte) : ℕ) = 2 := rfl
  have h254 : ((254 : Byte) : ℕ) = 254 := rfl
  simp [b64core, b64emit, h0, h2, h254]

theorem b64core_head_BE (t : List Byte) :
    b64core (254 :: 1 :: 0 :: t) 0 (-6) =
      (63 :: 32 :: 4 :: 0 :: (b64core t 16646400 (-6)).1, (b64core t 16646400 (-6)).2) := by
  have h0 : ((0 : Byte) : ℕ) = 0 := rfl
  have h1 : ((1 : Byte) : ℕ) = 1 := rfl
  have h254 : ((254 : Byte) : ℕ) = 254 := rfl
  simp [b64core, b64emit, h0, h1, h254]

theorem b64_get2_LE (t : List Byte) :
    (base64_encode (0 :: 2 :: 254 :: t)).get? 2 = some 'L' := by
  rw [base64_encode]
  rw [b64core_head_LE t]
  by_cases hc : (b64core t 766 (-6)).2.2 > -6
  · simp [hc, List.get?]
    decide
  · simp [hc, List.get?]
    decide

theorem b64_get2_BE (t : List Byte) :
    (base64_encode (254 :: 1 :: 0 :: t)).get? 2 = some 'E' := by
  rw [base64_encode]
  rw [b64core_head_BE t]
  by_cases hc : (b64core t 16646400 (-6)).2.2 > -6
  · simp [hc, List.get?]
    decide
  · simp [hc, List.get?]
    decide

theorem flatten_replicate_two {α : Type} (m : ℕ) (P : List α) :
    (List.replicate (m + 2) P).flatten = P ++ (P ++ (List.replicate m P).flatten) := by
  rw [List.replicate_succ, List.flatten_cons, List.replicate_succ, List.flatten_cons]

theorem packbits_LE_head (m : ℕ) :
    ∃ t, packbits_compress ((List.replicate (m + 2) ([2, 1, 1, 1] : List Byte)).flatten) =
      0 :: 2 :: 254 :: t := by
  rw [flatten_replicate_two]
  simp only [List.cons_append, List.nil_append]
  rw [packbits_compress_fuel _
    (((List.replicate m ([2, 1, 1, 1] : List Byte)).flatten).length + 8) (by simp)]
  rw [compressGo_LE_step]
  exact ⟨_, rfl⟩

theorem packbits_BE_head (m : ℕ) :
    ∃ t, packbits_compress ((List.replicate (m + 2) ([1, 1, 1, 2] : List Byte)).flatten) =
      254 :: 1 :: 0 :: t := by
  rw [flatten_replicate_two]
  simp only [List.cons_append, List.nil_append]
  rw [packbits_compress_fuel _
    (((List.replicate m ([1, 1, 1, 2] : List Byte)).flatten).length + 8) (by simp)]
  rw [compressGo_BE_step]
  exact ⟨_, rfl⟩

theorem encodeLayer_const_get2 : (encode_layer constLayer).get? 2 = some 'L' := by
  rw [encode_layer, bytesLE_layerWords, streamLE_const,
    show (307200 : ℕ) = 307198 + 2 from by norm_num]
  obtain ⟨t, ht⟩ := packbits_LE_head 307198
  rw [ht]
  exact b64_get2_LE t

theorem claimBE_const_get2 :
    (base64_encode (packbits_compress (specStreamBE constLayer))).get? 2 = some 'E' := by
  rw [specStreamBE_const, show (307200 : ℕ) = 307198 + 2 from by norm_num]
  obtain ⟨t, ht⟩ := packbits_BE_head 307198
  rw [ht]
  exact b64_get2_BE t

/-- C5 counterexample: serializing the constant layer with pixel
`(1,1,1,2)` does not produce `base64(PackBits(S))` for the big-endian byte
stream `S` of the claim — the server reinterprets its `uint32_t` buffer on
a little-endian machine, so the byte order per pixel is `a,b,g,r`, not
`r,g,b,a`, and the resulting strings differ (already at character index 2). -/
theorem C5_counterexample :
    encode_layer constLayer ≠
      base64_encode (packbits_compress (specStreamBE constLayer)) := by
  intro h
  have h1 := encodeLayer_const_get2
  rw [h, claimBE_const_get2] at h1
  exact absurd h1 (by decide)

/-- C5 (amended): serializing any drawable layer produces
`base64(PackBits(S))` where `S` is the byte stream of `W·H` 32-bit
*little-endian* words packed as `(r<<24)|(g<<16)|(b<<8)|a` — equivalently,
bytes `a, b, g, r` for each pixel — taken in y-major then x order. -/
theorem C5_layer_encoding (px : LayerPixels) :
    encode_layer px = base64_encode (packbits_compress (streamLE px)) := by
  rw [encode_layer, bytesLE_layerWords]

/-! ### C3: which identifier designates which brush -/

theorem pressure_center :
    pressureWriteAt ⟨9, 8, 7, 255⟩ 10 255 0 0 = some ⟨9, 8, 7, 255⟩ := by
  have hb : ((255 : Byte) : ℕ) = 255 := rfl
  have hbr : (((255 : Byte) : ℕ) : ℝ) = 255 := by rw [hb]; norm_num
  rw [pressureWriteAt]
  norm_num [Real.sqrt_zero, Real.sqrt_one, mkByte, brushOpacity, hbr,
    show ((255 : ℝ) * 255 / 255) = ((255 : ℤ) : ℝ) from by norm_num,
    Int.floor_intCast, Int.toNat_ofNat]
  constructor
  · decide
  · apply Fin.ext
    simp
    exact hb.symm

theorem pressure_center_mem :
    ((100 : ℤ), (100 : ℤ), (⟨9, 8, 7, 255⟩ : Pixel)) ∈
      pressurePaint 100 100 ⟨9, 8, 7, 255⟩ 10 255 0 := by
  rw [pressurePaint]
  norm_num
  exact ⟨0, 0, by decide, ⟨9, 8, 7, 255⟩, pressure_center, rfl, rfl, rfl⟩

theorem softEraser_center :
    softEraserWriteAt 10 255 0 0 = some ⟨0, 0, 0, 255⟩ := by
  rw [softEraserWriteAt]
  norm_num [Real.sqrt_zero, mkByte, brushOpacity,
    show ((10 : ℝ) * (0.5 + 0.5 * (((255 : ℕ) : ℝ) / 255))) = ((10 : ℤ) : ℝ) from by norm_num,
    Int.floor_intCast, Int.toNat_ofNat]
  constructor
  · decide
  · decide

theorem softEraserWriteAt_rgb (size pressure : ℕ) (i j : ℤ) (c : Pixel)
    (h : softEraserWriteAt size pressure i j = some c) :
    c.r = 0 ∧ c.g = 0 ∧ c.b = 0 := by
  rw [softEraserWriteAt] at h
  split_ifs at h <;> simp_all
  all_goals exact ⟨by rw [← h.2], by rw [← h.2], by rw [← h.2]⟩

theorem softEraserPaint_rgb (x y : ℤ) (color : Pixel) (size pressure : ℕ) (angle : ℤ)
    (w : ℤ × ℤ × Pixel) (h : w ∈ softEraserPaint x y color size pressure angle) :
    w.2.2.r = 0 ∧ w.2.2.g = 0 ∧ w.2.2.b = 0 := by
  rw [softEraserPaint] at h
  obtain ⟨q, -, hmap⟩ := List.mem_filterMap.mp h
  obtain ⟨c, hc, hw⟩ := Option.map_eq_some'.mp hmap
  have := softEraserWriteAt_rgb size pressure q.1 q.2 c hc
  rw [← hw]
  exact this

/-- C3 counterexample: brush identifier 3 of the server's catalog is not
the soft eraser.  Entry 3 is `PressureBrush` (registered fourth in
server.cpp `main`): stamping it at `(100,100)` with color `(9,8,7,255)`,
size 10, pressure 255 writes the pixel `(9,8,7,255)` at the centre, while
the soft eraser only ever writes pixels whose RGB channels are zero (its
alpha carries the erase strength). -/
theorem C3_counterexample :
    availableBrushes.get ⟨3, by simp [availableBrushes]⟩ ≠ softEraserPaint := by
  intro h
  have hm : ((100 : ℤ), (100 : ℤ), (⟨9, 8, 7, 255⟩ : Pixel)) ∈
      pressurePaint 100 100 ⟨9, 8, 7, 255⟩ 10 255 0 := pressure_center_mem
  have hget : availableBrushes.get ⟨3, by simp [availableBrushes]⟩ = pressurePaint := rfl
  rw [hget] at h
  rw [h] at hm
  have hz := softEraserPaint_rgb 100 100 ⟨9, 8, 7, 255⟩ 10 255 0 _ hm
  have : (9 : Byte) = 0 := hz.1
  exact absurd this (by decide)

/-- C3 (amended): in the server's brush catalog, identifier 3 designates
the pressure brush (disc of effective diameter `size·(0.3 + 0.7·p)` with a
1.5-pixel feathered edge and alpha curve `0.2 + 0.8·√p`), identifier 4 the
airbrush, identifier 5 the textured/real-paint brush, and identifier 6 the
soft eraser (radial cubic falloff scaled by pressure and opacity, the
output pixel's alpha carrying the erase strength); witnessed by the
pressure brush's centre write and the soft eraser's erase-strength-only
centre write. -/
theorem C3_catalog :
    availableBrushes.get ⟨3, by simp [availableBrushes]⟩ = pressurePaint ∧
    availableBrushes.get ⟨4, by simp [availableBrushes]⟩ = airbrushPaint ∧
    availableBrushes.get ⟨5, by simp [availableBrushes]⟩ = texturedPaint ∧
    availableBrushes.get ⟨6, by simp [availableBrushes]⟩ = softEraserPaint ∧
    ((100 : ℤ), (100 : ℤ), (⟨9, 8, 7, 255⟩ : Pixel)) ∈
      pressurePaint 100 100 ⟨9, 8, 7, 255⟩ 10 255 0 ∧
    softEraserWriteAt 10 255 0 0 = some ⟨0, 0, 0, 255⟩ :=
  ⟨rfl, rfl, rfl, rfl, pressure_center_mem, softEraser_center⟩

/-- C10: a DRAW datagram whose brush id lies outside the catalog
(`brush_id ≥ 7`) modifies no layer pixel, yet still sets the room's dirty
flag and is still rebroadcast to every unreliable peer except the
sender's endpoint. -/
theorem C10_unknown_brush (room : CanvasRoom) (msg : UDPMessage) (sender : Endpoint)
    (h : 7 ≤ msg.brush_id.val) :
    (handle_draw room msg sender).1.layers = room.layers ∧
    (handle_draw room msg sender).1.dirty = true ∧
    (handle_draw room msg sender).2 =
      (room.udp_clients.filter (fun c => decide (¬ c = sender))).map
        (fun c => (c, msg)) := by
  have hlen : availableBrushes.length = 7 := by simp [availableBrushes]
  have hng : ¬ msg.brush_id.val < availableBrushes.length := by omega
  simp [handle_draw, broadcast_udp, hng]

theorem C10_witness :
    7 ≤ w10Msg.brush_id.val ∧
    ((handle_draw w10Room w10Msg ⟨1, 2⟩).1.layers = w10Room.layers ∧
     (handle_draw w10Room w10Msg ⟨1, 2⟩).1.dirty = true ∧
     (handle_draw w10Room w10Msg ⟨1, 2⟩).2 =
       (w10Room.udp_clients.filter (fun c => decide (¬ c = (⟨1, 2⟩ : Endpoint)))).map
         (fun c => (c, w10Msg))) :=
  ⟨by decide, C10_unknown_brush w10Room w10Msg ⟨1, 2⟩ (by decide)⟩

/-- C1: the server's `handle_draw` stores the round brush's output pixel
verbatim over the existing layer pixel instead of source-over blending it.
Stamping `(0,0,0,128)` onto the opaque-red pixel `(255,0,0,255)` leaves
`(0,0,0,128)` in the layer, while the §4.5 source-over blend required by
the claim (and computed by the client for the same datagram) yields
`(127,0,0,255)`. -/
theorem C1_draw_overwrites :
    ((handle_draw c1Room c1Msg ⟨0, 0⟩).1.layers.getD 1 transparentLayer).pixels 100 100 =
        (⟨0, 0, 0, 128⟩ : Pixel) ∧
    sourceOverSpec ⟨0, 0, 0, 128⟩ ⟨255, 0, 0, 255⟩ = ⟨127, 0, 0, 255⟩ ∧
    (⟨0, 0, 0, 128⟩ : Pixel) ≠ ⟨127, 0, 0, 255⟩ := by
  refine ⟨by decide, ?_, by decide⟩
  rw [sourceOverSpec]
  have h1 : (((128 : Byte) : ℕ) : ℚ) = 128 := by
    rw [show ((128 : Byte) : ℕ) = 128 from rfl]
    norm_num
  have h2 : (((255 : Byte) : ℕ) : ℚ) = 255 := by
    rw [show ((255 : Byte) : ℕ) = 255 from rfl]
    norm_num
  have h0 : (((0 : Byte) : ℕ) : ℚ) = 0 := by
    rw [show ((0 : Byte) : ℕ) = 0 from rfl]
    norm_num
  norm_num [h1, h2, h0]
  all_goals decide

/-- C7: uids are assigned smallest-free at join, but a leaving user's uid
is never freed.  After A, B, C join with uids 1, 2, 3 and B disconnects,
the next user D receives uid 4, not 2: the disconnect path never removes
the user record, so B's uid stays marked as used. -/
theorem C7_uid_not_reused :
    (loginStep c7Room0 10 "A").2 = 1 ∧
    (loginStep (loginStep c7Room0 10 "A").1 11 "B").2 = 2 ∧
    (loginStep (loginStep (loginStep c7Room0 10 "A").1 11 "B").1 12 "C").2 = 3 ∧
    (loginStep (disconnectStep
        (loginStep (loginStep (loginStep c7Room0 10 "A").1 11 "B").1 12 "C").1 11)
      13 "D").2 = 4 := by
  set_option maxRecDepth 40000 in decide

/-- C6: the server never accepts a 256-byte signature.  The
MSG_SIGNATURE handler is guarded by `data_len == 128`, so the payload
length 256 that the claim (and the repository's own client, which sends
`data_len = 256`) prescribes is dropped without storing or broadcasting
anything, while the same payload declared with length 128 is stored
(truncated to 128 bytes) and echoed. -/
theorem C6_signature_len_mismatch :
    signatureStep c6Room 5 0 c6Msg256 = (c6Room, []) ∧
    (signatureStep c6Room 5 0 c6Msg128).2.map Prod.fst = [5] ∧
    (signatureStep c6Room 5 0 c6Msg128).2.map (fun p => p.2.user_id) = [mkByte 1] ∧
    (usersFind (signatureStep c6Room 5 0 c6Msg128).1.users 5).map
        (fun u => u.signature) = some (some (c6Payload.take 128)) := by
  refine ⟨rfl, by decide, by decide, by decide⟩

/-- C8 counterexample: with 15 layers present a LAYER_ADD request does
leave the layer sequence unchanged, but the no-op is not silent: the
handler still broadcasts a MSG_LAYER_ADD response to the subscriber. -/
theorem C8_counterexample :
    (layerAddStep c8Room 0 c8Msg).1.layers = c8Room.layers ∧
    (layerAddStep c8Room 0 c8Msg).2.map Prod.fst = [5] := by
  exact ⟨rfl, by decide⟩

set_option maxRecDepth 8000 in
/-- C8 (amended): when a room already holds `MAX_LAYERS = 15` layers a
LAYER_ADD request leaves the layer sequence unchanged, but it is not a
silent no-op: the handler still broadcasts a MSG_LAYER_ADD response — one
message per subscriber socket — carrying the unchanged layer count 15
(and still marks the room dirty). -/
theorem C8_layer_add_at_capacity (room : CanvasRoom) (cid : Byte) (msg : TCPMessage)
    (h : room.layers.length = MAX_LAYERS) :
    (layerAddStep room cid msg).1.layers = room.layers ∧
    (layerAddStep room cid msg).1.dirty = true ∧
    (layerAddStep room cid msg).2.map Prod.fst =
      room.tcp_clients.filter (fun s => decide (¬ s = -1)) ∧
    (layerAddStep room cid msg).2.map (fun p => p.2.layer_count) =
      (room.tcp_clients.filter (fun s => decide (¬ s = -1))).map
        (fun s => mkByte MAX_LAYERS) := by
  have hle : MAX_LAYERS ≤ room.layers.length := le_of_eq h.symm
  simp [layerAddStep, insert_layer, add_layer, hle, h, List.map_map,
    Function.comp_def, apply_ite Prod.fst, ite_self]

/-- C8 witness: the capacity hypothesis holds of the concrete 15-layer
room and the amended conclusion follows for it. -/
theorem C8_witness :
    c8Room.layers.length = MAX_LAYERS ∧
    ((layerAddStep c8Room 0 c8Msg).1.layers = c8Room.layers ∧
     (layerAddStep c8Room 0 c8Msg).1.dirty = true ∧
     (layerAddStep c8Room 0 c8Msg).2.map Prod.fst =
       c8Room.tcp_clients.filter (fun s => decide (¬ s = -1)) ∧
     (layerAddStep c8Room 0 c8Msg).2.map (fun p => p.2.layer_count) =
       (c8Room.tcp_clients.filter (fun s => decide (¬ s = -1))).map
         (fun s => mkByte MAX_LAYERS)) :=
  ⟨by decide, C8_layer_add_at_capacity c8Room 0 c8Msg (by decide)⟩

/-- Loop invariant for `bresLoop`: after `i` x-steps and `j` y-steps the
error term is `A*(1+j) - B*(1+i)`; with it the walk never oversteps and
reaches the target exactly, within fuel `A + B + 1`. -/
theorem bresLoop_reaches (A B sx sy x1 y1 : ℤ) (hA : 0 ≤ A) (hB : 0 ≤ B)
    (hsx : sx = 1 ∨ sx = -1) (hsy : sy = 1 ∨ sy = -1) :
    ∀ (fuel : ℕ) (i j : ℤ), 0 ≤ i → i ≤ A → 0 ≤ j → j ≤ B →
      A - i + (B - j) < (fuel : ℤ) →
      ∃ l, bresLoop fuel (x1 - sx * (A - i)) (y1 - sy * (B - j)) x1 y1 A (-B) sx sy
            (A * (1 + j) - B * (1 + i)) = l ++ [(x1, y1)] := by
  intro fuel
  induction fuel with
  | zero =>
    intro i j hi0 hiA hj0 hjB hfuel
    exfalso
    push_cast at hfuel
    linarith
  | succ fc ih =>
    intro i j hi0 hiA hj0 hjB hfuel
    push_cast at hfuel
    by_cases hdone : i = A ∧ j = B
    · obtain ⟨h1, h2⟩ := hdone
      subst h1; subst h2
      refine ⟨[], ?_⟩
      simp [bresLoop]
    · have hcond : ¬(x1 - sx * (A - i) = x1 ∧ y1 - sy * (B - j) = y1) := by
        rintro ⟨hx, hy⟩
        apply hdone
        rcases hsx with h | h <;> rcases hsy with h' | h' <;>
          (subst h; subst h'; constructor <;> omega)
      have hover1 : i = A → 2 * (A * (1 + j) - B * (1 + i)) < -B := by
        intro h
        have hjB' : j < B := by
          rcases not_and_or.mp hdone with h' | h'
          · exact absurd h h'
          · exact lt_of_le_of_ne hjB h'
        have hmul : A * j ≤ A * (B - 1) :=
          mul_le_mul_of_nonneg_left (by linarith) hA
        rw [h]
        nlinarith [hmul]
      have hover2 : j = B → A < 2 * (A * (1 + j) - B * (1 + i)) := by
        intro h
        have hiA' : i < A := by
          rcases not_and_or.mp hdone with h' | h'
          · exact lt_of_le_of_ne hiA h'
          · exact absurd h h'
        have hmul : B * i ≤ B * (A - 1) :=
          mul_le_mul_of_nonneg_left (by linarith) hB
        rw [h]
        nlinarith [hmul]
      by_cases hg1 : -B ≤ 2 * (A * (1 + j) - B * (1 + i)) <;>
        by_cases hg2 : 2 * (A * (1 + j) - B * (1 + i)) ≤ A
      · -- both coordinates step
        have hiA' : i < A := by
          by_contra h
          exact absurd hg1 (not_le.mpr (hover1 (le_antisymm hiA (le_of_not_lt h))))
        have hjB' : j < B := by
          by_contra h
          exact absurd hg2 (not_le.mpr (hover2 (le_antisymm hjB (le_of_not_lt h))))
        obtain ⟨l, hl⟩ := ih (i + 1) (j + 1) (by linarith) (by linarith) (by linarith)
          (by linarith) (by push_cast; linarith)
        refine ⟨(x1 - sx * (A - i), y1 - sy * (B - j)) :: l, ?_⟩
        simp only [bresLoop, if_neg hcond, if_pos hg1, if_pos hg2]
        have ex : x1 - sx * (A - i) + sx = x1 - sx * (A - (i + 1)) := by ring
        have ey : y1 - sy * (B - j) + sy = y1 - sy * (B - (j + 1)) := by ring
        have ee : A * (1 + j) - B * (1 + i) + -B + A
            = A * (1 + (j + 1)) - B * (1 + (i + 1)) := by ring
        rw [List.cons_append, ex, ey, ee, hl]
      · -- only x steps
        have hiA' : i < A := by
          by_contra h
          exact absurd hg1 (not_le.mpr (hover1 (le_antisymm hiA (le_of_not_lt h))))
        obtain ⟨l, hl⟩ := ih (i + 1) j (by linarith) (by linarith) hj0 hjB
          (by push_cast; linarith)
        refine ⟨(x1 - sx * (A - i), y1 - sy * (B - j)) :: l, ?_⟩
        simp only [bresLoop, if_neg hcond, if_pos hg1, if_neg hg2]
        have ex : x1 - sx * (A - i) + sx = x1 - sx * (A - (i + 1)) := by ring
        have ee : A * (1 + j) - B * (1 + i) + -B + 0
            = A * (1 + j) - B * (1 + (i + 1)) := by ring
        rw [List.cons_append, ex, ee, hl]
      · -- only y steps
        have hjB' : j < B := by
          by_contra h
          exact absurd hg2 (not_le.mpr (hover2 (le_antisymm hjB (le_of_not_lt h))))
        obtain ⟨l, hl⟩ := ih i (j + 1) hi0 hiA (by linarith) (by linarith)
          (by push_cast; linarith)
        refine ⟨(x1 - sx * (A - i), y1 - sy * (B - j)) :: l, ?_⟩
        simp only [bresLoop, if_neg hcond, if_neg hg1, if_pos hg2]
        have ey : y1 - sy * (B - j) + sy = y1 - sy * (B - (j + 1)) := by ring
        have ee : A * (1 + j) - B * (1 + i) + A
            = A * (1 + (j + 1)) - B * (1 + i) := by ring
        rw [List.cons_append, ey, ee, hl]
      · exfalso
        have h1 := not_le.mp hg1
        have h2 := not_le.mp hg2
        linarith

/-- The Bresenham walk always terminates at the target: the stamped point
list ends with `(x1, y1)` — the endpoint is included. -/
theorem bresenham_ends (x0 y0 x1 y1 : ℤ) :
    ∃ l, bresenham x0 y0 x1 y1 = l ++ [(x1, y1)] := by
  have hsx : (if x0 < x1 then (1:ℤ) else -1) = 1 ∨
      (if x0 < x1 then (1:ℤ) else -1) = -1 := by
    by_cases h : x0 < x1 <;> simp [h]
  have hsy : (if y0 < y1 then (1:ℤ) else -1) = 1 ∨
      (if y0 < y1 then (1:ℤ) else -1) = -1 := by
    by_cases h : y0 < y1 <;> simp [h]
  obtain ⟨l, hl⟩ :=
    bresLoop_reaches |x1 - x0| |y1 - y0| (if x0 < x1 then 1 else -1)
      (if y0 < y1 then 1 else -1) x1 y1 (abs_nonneg _) (abs_nonneg _) hsx hsy
      ((x1 - x0).natAbs + (y1 - y0).natAbs + 1) 0 0 le_rfl (abs_nonneg _) le_rfl
      (abs_nonneg _)
      (by push_cast [Int.natCast_natAbs]; linarith)
  have ex : x1 - (if x0 < x1 then (1:ℤ) else -1) * (|x1 - x0| - 0) = x0 := by
    by_cases h : x0 < x1
    · rw [if_pos h, abs_of_nonneg (by linarith : (0:ℤ) ≤ x1 - x0)]; ring
    · rw [if_neg h, abs_of_nonpos (by linarith [le_of_not_lt h] : x1 - x0 ≤ 0)]; ring
  have ey : y1 - (if y0 < y1 then (1:ℤ) else -1) * (|y1 - y0| - 0) = y0 := by
    by_cases h : y0 < y1
    · rw [if_pos h, abs_of_nonneg (by linarith : (0:ℤ) ≤ y1 - y0)]; ring
    · rw [if_neg h, abs_of_nonpos (by linarith [le_of_not_lt h] : y1 - y0 ≤ 0)]; ring
  have ee : |x1 - x0| * (1 + 0) - |y1 - y0| * (1 + 0)
      = |x1 - x0| + -|y1 - y0| := by ring
  rw [ex, ey, ee] at hl
  exact ⟨l, hl⟩

/-- The Bresenham walk starts at the line's start point. -/
theorem bresenham_head (x0 y0 x1 y1 : ℤ) :
    (bresenham x0 y0 x1 y1).head? = some (x0, y0) := by
  rw [bresenham, bresLoop]
  split <;> rfl

/-- `arctan t < t` for positive `t` (via `t = tan (arctan t)` and
`x < tan x` on `(0, π/2)`). -/
theorem arctan_lt_self_of_pos {t : ℝ} (ht : 0 < t) : Real.arctan t < t := by
  have h1 : 0 < Real.arctan t := by
    have h := Real.arctan_strictMono ht
    rwa [Real.arctan_zero] at h
  have h2 := Real.lt_tan h1 (Real.arctan_lt_pi_div_two t)
  rwa [Real.tan_arctan] at h2

/-- `t / √(1 + t²) < arctan t` for positive `t` (via `sin x < x`). -/
theorem div_sqrt_lt_arctan {t : ℝ} (ht : 0 < t) :
    t / Real.sqrt (1 + t ^ 2) < Real.arctan t := by
  have h1 : 0 < Real.arctan t := by
    have h := Real.arctan_strictMono ht
    rwa [Real.arctan_zero] at h
  have h2 := Real.sin_lt h1
  rwa [Real.sin_arctan] at h2

/-- The line angle of a `(0,0) → (100,1)` segment in degrees lies
strictly between 1/2 and 1. -/
theorem c2_angle_bounds :
    1/2 < Real.arctan (1/100) * 180 / Real.pi ∧
    Real.arctan (1/100) * 180 / Real.pi < 1 := by
  have hpi : 0 < Real.pi := Real.pi_pos
  have hpi3 : 3 < Real.pi := Real.pi_gt_three
  have hpi315 : Real.pi < 3.15 := Real.pi_lt_d2
  have ht : (0:ℝ) < 1/100 := by norm_num
  have hup : Real.arctan (1/100) < 1/100 := arctan_lt_self_of_pos ht
  have hsq : Real.sqrt (1 + (1/100:ℝ) ^ 2) < 1.02 :=
    (Real.sqrt_lt' (by norm_num)).mpr (by norm_num)
  have hsqpos : 0 < Real.sqrt (1 + (1/100:ℝ) ^ 2) :=
    Real.sqrt_pos.mpr (by norm_num)
  have hlow0 : (1/100 : ℝ) / 1.02 < (1/100) / Real.sqrt (1 + (1/100:ℝ) ^ 2) :=
    div_lt_div_of_pos_left ht hsqpos hsq
  have hlow : (1/100 : ℝ) / 1.02 < Real.arctan (1/100) :=
    lt_trans hlow0 (div_sqrt_lt_arctan ht)
  constructor
  · rw [lt_div_iff₀ hpi]
    nlinarith [hlow, hpi315]
  · rw [div_lt_one hpi]
    nlinarith [hup, hpi3]

/-- `atan2` at a positive abscissa is the principal arctangent. -/
theorem atan2_pos_x (y x : ℝ) (hx : 0 < x) : atan2 y x = Real.arctan (y / x) := by
  rw [atan2, if_pos hx]

/-- C2 counterexample: for a LINE datagram from `(0,0)` to `(100,1)` the
claimed per-stamp angle `round(atan2(1,100) · 180/π)` equals `1`, but
`handle_line` computes `(int)(atan2(1,100) · 180/π)`, and the C cast
truncates the value (≈ 0.573°) to `0`. -/
theorem C2_counterexample :
    lineAngle c2Msg = 0 ∧
    round (atan2 (1:ℝ) 100 * 180 / Real.pi) = 1 ∧ (0 : ℤ) ≠ 1 := by
  have hb := c2_angle_bounds
  have hD0 : atan2 (1:ℝ) 100 = Real.arctan (1/100) := by
    rw [atan2_pos_x 1 100 (by norm_num)]
  have key1 : cIntCast (Real.arctan (1/100) * 180 / Real.pi) = 0 := by
    rw [cIntCast, if_pos (by linarith [hb.1])]
    exact Int.floor_eq_zero_iff.mpr ⟨by linarith [hb.1], hb.2⟩
  have key2 : round (Real.arctan (1/100) * 180 / Real.pi) = 1 := by
    rw [round_eq]
    rw [Int.floor_eq_iff]
    constructor <;> push_cast <;> [linarith [hb.1]; linarith [hb.2]]
  refine ⟨?_, ?_, by decide⟩
  · have e1 : ((c2Msg.ey - c2Msg.y : ℤ) : ℝ) = 1 := by norm_num [c2Msg]
    have e2 : ((c2Msg.ex - c2Msg.x : ℤ) : ℝ) = 100 := by norm_num [c2Msg]
    rw [lineAngle, e1, e2, hD0]
    exact key1
  · rw [hD0]
    exact key2

/-- C2 (amended): for every LINE datagram whose brush id is within the
catalog, `handle_line` stamps the brush at exactly the integer points of
the standard Bresenham walk from `(x, y)` to `(ex, ey)` — the walk begins
at the start point and the endpoint is included as the final stamp — and
every stamp along the line is invoked with
`angle = trunc(atan2(ey - y, ex - x) · 180/π)`, the C `(int)` cast
truncating toward zero rather than rounding to nearest. -/
theorem C2_line_bresenham (room : CanvasRoom) (msg : UDPMessage) (sender : Endpoint)
    (h : msg.brush_id.val < availableBrushes.length) :
    (∃ l, bresenham msg.x msg.y msg.ex msg.ey = l ++ [(msg.ex, msg.ey)]) ∧
    (bresenham msg.x msg.y msg.ex msg.ey).head? = some (msg.x, msg.y) ∧
    (handle_line room msg sender).1.layers =
      room.layers.modify
        (fun L => (bresenham msg.x msg.y msg.ex msg.ey).foldl
          (fun acc p => applyWrites acc
            ((availableBrushes.get ⟨msg.brush_id.val, h⟩)
              p.1 p.2 ⟨msg.r, msg.g, msg.b, msg.a⟩ msg.size.val msg.pressure.val
              (cIntCast (atan2 ((msg.ey - msg.y : ℤ) : ℝ) ((msg.ex - msg.x : ℤ) : ℝ)
                * 180 / Real.pi)))) L)
        (if msg.layer_id.val = 0 ∨ room.layers.length ≤ msg.layer_id.val then 1
         else msg.layer_id.val) := by
  refine ⟨bresenham_ends _ _ _ _, bresenham_head _ _ _ _, ?_⟩
  rw [handle_line]
  simp only [dif_pos h, lineAngle]

/-- C2 witness: the amended line theorem instantiated at the concrete
LINE datagram from `(0,0)` to `(100,1)` in a fresh two-layer room. -/
theorem C2_witness :
    c2Msg.brush_id.val < availableBrushes.length ∧
    ((∃ l, bresenham c2Msg.x c2Msg.y c2Msg.ex c2Msg.ey = l ++ [(c2Msg.ex, c2Msg.ey)]) ∧
     (bresenham c2Msg.x c2Msg.y c2Msg.ex c2Msg.ey).head? = some (c2Msg.x, c2Msg.y) ∧
     (handle_line c7Room0 c2Msg ⟨7, 7⟩).1.layers =
       c7Room0.layers.modify
         (fun L => (bresenham c2Msg.x c2Msg.y c2Msg.ex c2Msg.ey).foldl
           (fun acc p => applyWrites acc
             ((availableBrushes.get ⟨c2Msg.brush_id.val, c2H⟩)
               p.1 p.2 ⟨c2Msg.r, c2Msg.g, c2Msg.b, c2Msg.a⟩ c2Msg.size.val
               c2Msg.pressure.val
               (cIntCast (atan2 ((c2Msg.ey - c2Msg.y : ℤ) : ℝ)
                 ((c2Msg.ex - c2Msg.x : ℤ) : ℝ) * 180 / Real.pi)))) L)
         (if c2Msg.layer_id.val = 0 ∨ c7Room0.layers.length ≤ c2Msg.layer_id.val then 1
          else c2Msg.layer_id.val)) :=
  ⟨c2H, C2_line_bresenham c7Room0 c2Msg ⟨7, 7⟩ c2H⟩
